import Mathlib

/-!
Shallow embedding of ikapper/terminal-char-guruguru (src/main.rs) and proofs
about its generators, its animation-engine signal handling, and its input
controller.  Machine integers (`u16` coordinates) are modelled as `Nat` with
explicit wrapping `% 65536` on the arithmetic the source performs; the
wrapping model follows release-build semantics, and separate predicates mark
the overflow/underflow situations in which a debug build panics.
-/

namespace Guruguru

/-- Wrapping u16 increment, modelling `x + 1` / `x += 1` on a `u16`. -/
def uadd1 (x : Nat) : Nat := (x + 1) % 65536

/-- Wrapping u16 decrement, modelling `x -= 1` on a `u16` (release build wraps
`0 - 1` to `65535`; a debug build panics there). -/
def usub1 (x : Nat) : Nat := (x + 65535) % 65536

/-- The enum `Direction` of src/main.rs (lines 60-65). -/
inductive Direction
  | Right
  | Down
  | Left
  | Up
deriving DecidableEq, Repr

/-- The struct `PositionGenerator` of src/main.rs (lines 52-58). -/
structure PositionGenerator where
  width : Nat
  height : Nat
  x : Nat
  y : Nat
  direction : Direction
deriving DecidableEq, Repr

/-- Constructor `PositionGenerator::new` (lines 67-77): start at (0,0) facing
`Right`. -/
def PositionGenerator.new (width height : Nat) : PositionGenerator :=
  ⟨width, height, 0, 0, Direction.Right⟩

/-- The state update performed by one call of
`impl Iterator for PositionGenerator::next` (lines 81-118), after the current
position has been saved for emission.  Each arm mirrors one `match` arm of the
source: `Right` tests `self.x + 1 < self.width`, then either `self.x += 1` or
`self.y += 1` with a turn to `Down`, and so on. -/
def pgStep : PositionGenerator → PositionGenerator
  | ⟨w, h, x, y, .Right⟩ =>
      if uadd1 x < w then ⟨w, h, uadd1 x, y, .Right⟩ else ⟨w, h, x, uadd1 y, .Down⟩
  | ⟨w, h, x, y, .Down⟩ =>
      if uadd1 y < h then ⟨w, h, x, uadd1 y, .Down⟩ else ⟨w, h, usub1 x, y, .Left⟩
  | ⟨w, h, x, y, .Left⟩ =>
      if x ≠ 0 then ⟨w, h, usub1 x, y, .Left⟩ else ⟨w, h, x, usub1 y, .Up⟩
  | ⟨w, h, x, y, .Up⟩ =>
      if y ≠ 0 then ⟨w, h, x, usub1 y, .Up⟩ else ⟨w, h, uadd1 x, y, .Right⟩

/-- One call of `PositionGenerator::next` (lines 81-118): it emits the position
held before the update (`let (prevx, prevy) = (self.x, self.y)`) and then
updates the state. -/
def pgNext (s : PositionGenerator) : (Nat × Nat) × PositionGenerator :=
  ((s.x, s.y), pgStep s)

/-- Position emitted by the (n+1)-st call of `next` on state `s`. -/
def pgEmit (s : PositionGenerator) (n : Nat) : Nat × Nat :=
  ((pgStep^[n] s).x, (pgStep^[n] s).y)

/-- Whether one call of `PositionGenerator::next` performs a u16
overflow/underflow, i.e. panics in a debug build: the source decrements with
no guard in the `Down` arm (`self.x -= 1`, line 96) and in the `Left` arm
(`self.y -= 1`, line 104), and increments with no guard elsewhere. -/
def pgNextPanics (s : PositionGenerator) : Bool :=
  match s.direction with
  | .Right => decide (s.x = 65535) || (decide (s.width ≤ s.x + 1) && decide (s.y = 65535))
  | .Down => decide (s.y = 65535) || (decide (s.height ≤ s.y + 1) && decide (s.x = 0))
  | .Left => decide (s.x = 0) && decide (s.y = 0)
  | .Up => decide (s.y = 0) && decide (s.x = 65535)

/-- The struct `CharGen` of src/main.rs (lines 23-26); the Rust `Vec<char>` is
a `List Char`. -/
structure CharGen where
  position : Nat
  chars : List Char
deriving DecidableEq, Repr

/-- Constructor `CharGen::new` (lines 29-32): position 0 over the given
characters. -/
def CharGen.new (cs : List Char) : CharGen := ⟨0, cs⟩

/-- Method `CharGen::update` (lines 33-38): clear `chars`, extend it with the
new characters, then set `position = position % chars.len()`.  In Rust the
final remainder panics when the new message is empty; `Nat` makes `p % 0 = p`,
and `cgUpdateDividesByZero` marks that panic case. -/
def CharGen.update (cg : CharGen) (newmsg : List Char) : CharGen :=
  ⟨cg.position % newmsg.length, newmsg⟩

/-- Whether `CharGen::update` computes a remainder by zero (a Rust panic):
exactly when the new message is empty. -/
def cgUpdateDividesByZero (newmsg : List Char) : Bool :=
  decide (newmsg.length = 0)

/-- One call of `impl Iterator for CharGen::next` (lines 44-49): emit
`chars[position]` (the `none` of `List.get?` models the out-of-bounds panic
of Rust indexing) and set `position = (position + 1) % chars.len()`. -/
def cgNext (cg : CharGen) : Option Char × CharGen :=
  (cg.chars[cg.position]?, ⟨(cg.position + 1) % cg.chars.length, cg.chars⟩)

/-- The state update of one `CharGen::next` call. -/
def cgStep (cg : CharGen) : CharGen := (cgNext cg).2

/-- Character emitted by the (n+1)-st call of `CharGen::next`. -/
def cgEmit (cg : CharGen) (n : Nat) : Option Char := (cgNext (cgStep^[n] cg)).1

/-- The enum `State` of src/main.rs (lines 16-21): the control signals sent
from the input thread to the animation thread. -/
inductive State
  | Pause
  | Stop
  | Resume
  | NewMessage (msg : List Char)
deriving DecidableEq, Repr

/-- Outcome of the suspended wait loop of the animation thread
(lines 153-163): it either breaks back to the render loop (`Resume`), returns
(`Stop`), or — once the modelled finite queue is exhausted — keeps blocking in
`recv`. -/
inductive WaitOutcome
  | resumed (cg : CharGen) (rest : List State)
  | stopped
  | blocked (cg : CharGen)
deriving DecidableEq, Repr

/-- The suspended wait loop of the animation thread (lines 153-163), run
against the FIFO queue of pending signals: `NewMessage` updates the `CharGen`
and continues waiting, `Resume` breaks back to rendering, `Stop` returns, and
any other signal (`Pause`) is skipped. -/
def waitLoop : List State → CharGen → WaitOutcome
  | [], cg => .blocked cg
  | sig :: rest, cg =>
    match sig with
    | .NewMessage msg => waitLoop rest (cg.update msg)
    | .Resume => .resumed cg rest
    | .Stop => .stopped
    | .Pause => waitLoop rest cg

/-- The closure `should_pause` (lines 144-147): one non-blocking `try_recv`,
which consumes the head signal of the queue when one is pending and reports
whether that signal was `Pause` (every other signal, or an empty queue, yields
`false`). -/
def should_pause : List State → Bool × List State
  | [] => (false, [])
  | .Pause :: rest => (true, rest)
  | .Stop :: rest => (false, rest)
  | .Resume :: rest => (false, rest)
  | .NewMessage _ :: rest => (false, rest)

/-- Result of one iteration of the render loop while running: either the
engine proceeds to render the next frame (state `cg`, remaining queue), or it
stopped, or it is blocked inside the wait loop. -/
inductive EngineResult
  | running (cg : CharGen) (rest : List State)
  | stopped
  | blocked (cg : CharGen)
deriving DecidableEq, Repr

/-- One iteration of the render loop in the running state (lines 149-164 with
`is_first = false`): poll once via `should_pause`; on `Pause` enter the wait
loop, otherwise keep running and render the frame.  `.running cg rest` means
the engine proceeds to the frame-rendering part of the loop body with
generator state `cg` and pending queue `rest`. -/
def runningStep (q : List State) (cg : CharGen) : EngineResult :=
  match should_pause q with
  | (true, q2) =>
    match waitLoop q2 cg with
    | .resumed cg2 rest => .running cg2 rest
    | .stopped => .stopped
    | .blocked cg2 => .blocked cg2
  | (false, q2) => .running cg q2

/-- The computation `let inner_width = (width - 2) as usize` of the input
loop (line 186): wrapping u16 subtraction (a debug build panics when
`width < 2`). -/
def innerWidth (width : Nat) : Nat := (width + 65534) % 65536

/-- The `KeyCode::Char(ch)` branch of the input loop (lines 190-194): append
only when `msg.len() + 1 < inner_width`, otherwise drop the keystroke. -/
def onChar (inner_width : Nat) (msg : List Char) (ch : Char) : List Char :=
  if msg.length + 1 < inner_width then msg ++ [ch] else msg

/-! The reachable-state invariant of the traversal for a non-degenerate
rectangle: facing `Right` on the top edge, `Down` on the right edge, `Left`
on the bottom edge, `Up` on the left edge. -/

/-- Invariant satisfied by every state the generator reaches from
`PositionGenerator.new w h` when `2 ≤ w` and `2 ≤ h`. -/
def PGInv (w h : Nat) (s : PositionGenerator) : Prop :=
  s.width = w ∧ s.height = h ∧
  ((s.direction = .Right ∧ s.y = 0 ∧ s.x ≤ w - 1) ∨
   (s.direction = .Down ∧ s.x = w - 1 ∧ 1 ≤ s.y ∧ s.y ≤ h - 1) ∨
   (s.direction = .Left ∧ s.y = h - 1 ∧ s.x ≤ w - 2) ∨
   (s.direction = .Up ∧ s.x = 0 ∧ s.y ≤ h - 2))

instance (w h : Nat) (s : PositionGenerator) : Decidable (PGInv w h s) := by
  unfold PGInv; infer_instance

/-- The facing after a clockwise turn, the turn order the traversal uses. -/
def clockwise : Direction → Direction
  | .Right => .Down
  | .Down => .Left
  | .Left => .Up
  | .Up => .Right

/-- The per-facing boundary test of `PositionGenerator::next`: the condition
of the `if` in the arm the current facing selects (lines 85, 93, 101, 109),
written in exact arithmetic, which agrees with the wrapping test on every
in-range state. -/
def boundaryOk (s : PositionGenerator) : Prop :=
  match s.direction with
  | .Right => s.x + 1 < s.width
  | .Down => s.y + 1 < s.height
  | .Left => s.x ≠ 0
  | .Up => s.y ≠ 0

instance (s : PositionGenerator) : Decidable (boundaryOk s) := by
  unfold boundaryOk
  cases s.direction <;> infer_instance

/-- Movement by one cell in a given facing (truncated at 0; the invariant
rules the truncated case out). -/
def moveOne : Direction → Nat × Nat → Nat × Nat
  | .Right, (x, y) => (x + 1, y)
  | .Down, (x, y) => (x, y + 1)
  | .Left, (x, y) => (x - 1, y)
  | .Up, (x, y) => (x, y - 1)

/-! Arithmetic facts about the wrapping u16 operations, and one-step
reductions of `pgStep` when the operands stay in u16 range. -/

theorem uadd1_eq {x : Nat} (hx : x + 1 < 65536) : uadd1 x = x + 1 :=
  Nat.mod_eq_of_lt hx

theorem usub1_eq {x : Nat} (h1 : 1 ≤ x) (hx : x < 65536) : usub1 x = x - 1 := by
  unfold usub1; omega

theorem pgStep_R_advance {w h x y : Nat} (hc : x + 1 < w) (hb : w ≤ 65536) :
    pgStep ⟨w, h, x, y, .Right⟩ = ⟨w, h, x + 1, y, .Right⟩ := by
  have h1 : uadd1 x = x + 1 := uadd1_eq (by omega)
  simp [pgStep, h1, hc]

theorem pgStep_R_turn {w h x y : Nat} (hc : ¬ x + 1 < w) (hx : x + 1 < 65536)
    (hy : y + 1 < 65536) :
    pgStep ⟨w, h, x, y, .Right⟩ = ⟨w, h, x, y + 1, .Down⟩ := by
  have h1 : uadd1 x = x + 1 := uadd1_eq hx
  have h2 : uadd1 y = y + 1 := uadd1_eq hy
  simp [pgStep, h1, h2, hc]

theorem pgStep_D_advance {w h x y : Nat} (hc : y + 1 < h) (hb : h ≤ 65536) :
    pgStep ⟨w, h, x, y, .Down⟩ = ⟨w, h, x, y + 1, .Down⟩ := by
  have h1 : uadd1 y = y + 1 := uadd1_eq (by omega)
  simp [pgStep, h1, hc]

theorem pgStep_D_turn {w h x y : Nat} (hc : ¬ y + 1 < h) (hy : y + 1 < 65536)
    (hx1 : 1 ≤ x) (hx : x < 65536) :
    pgStep ⟨w, h, x, y, .Down⟩ = ⟨w, h, x - 1, y, .Left⟩ := by
  have h1 : uadd1 y = y + 1 := uadd1_eq hy
  have h2 : usub1 x = x - 1 := usub1_eq hx1 hx
  simp [pgStep, h1, h2, hc]

theorem pgStep_L_advance {w h x y : Nat} (hc : x ≠ 0) (hx : x < 65536) :
    pgStep ⟨w, h, x, y, .Left⟩ = ⟨w, h, x - 1, y, .Left⟩ := by
  have h2 : usub1 x = x - 1 := usub1_eq (by omega) hx
  simp [pgStep, h2, hc]

theorem pgStep_L_turn {w h y : Nat} (hy1 : 1 ≤ y) (hy : y < 65536) :
    pgStep ⟨w, h, 0, y, .Left⟩ = ⟨w, h, 0, y - 1, .Up⟩ := by
  have h2 : usub1 y = y - 1 := usub1_eq hy1 hy
  simp [pgStep, h2]

theorem pgStep_U_advance {w h x y : Nat} (hc : y ≠ 0) (hy : y < 65536) :
    pgStep ⟨w, h, x, y, .Up⟩ = ⟨w, h, x, y - 1, .Up⟩ := by
  have h2 : usub1 y = y - 1 := usub1_eq (by omega) hy
  simp [pgStep, h2, hc]

theorem pgStep_U_turn {w h x : Nat} (hx : x + 1 < 65536) :
    pgStep ⟨w, h, x, 0, .Up⟩ = ⟨w, h, x + 1, 0, .Right⟩ := by
  have h1 : uadd1 x = x + 1 := uadd1_eq hx
  simp [pgStep, h1]

theorem PGInv_new (w h : Nat) : PGInv w h (PositionGenerator.new w h) :=
  ⟨rfl, rfl, Or.inl ⟨rfl, rfl, Nat.zero_le _⟩⟩

theorem PGInv_step {w h : Nat} (h2w : 2 ≤ w) (hw : w < 65536) (h2h : 2 ≤ h)
    (hh : h < 65536) {s : PositionGenerator} (hs : PGInv w h s) :
    PGInv w h (pgStep s) := by
  obtain ⟨sw, sh, sx, sy, sd⟩ := s
  obtain ⟨hsw, hsh, hcase⟩ := hs
  dsimp only at hsw hsh
  subst hsw; subst hsh
  rcases hcase with ⟨hd, hy, hx⟩ | ⟨hd, hx, hy1, hy2⟩ | ⟨hd, hy, hx⟩ | ⟨hd, hx, hy⟩
  · dsimp only at hd hy hx
    subst hd; subst hy
    by_cases hc : sx + 1 < sw
    · rw [pgStep_R_advance hc (by omega)]
      exact ⟨rfl, rfl, Or.inl ⟨rfl, rfl, by dsimp only; omega⟩⟩
    · rw [pgStep_R_turn hc (by omega) (by omega)]
      exact ⟨rfl, rfl, Or.inr (Or.inl
        ⟨rfl, by dsimp only; omega, by dsimp only; omega, by dsimp only; omega⟩)⟩
  · dsimp only at hd hx hy1 hy2
    subst hd; subst hx
    by_cases hc : sy + 1 < sh
    · rw [pgStep_D_advance hc (by omega)]
      exact ⟨rfl, rfl, Or.inr (Or.inl
        ⟨rfl, rfl, by dsimp only; omega, by dsimp only; omega⟩)⟩
    · rw [pgStep_D_turn hc (by omega) (by omega) (by omega)]
      exact ⟨rfl, rfl, Or.inr (Or.inr (Or.inl
        ⟨rfl, by dsimp only; omega, by dsimp only; omega⟩))⟩
  · dsimp only at hd hy hx
    subst hd; subst hy
    by_cases hc : sx = 0
    · subst hc
      rw [pgStep_L_turn (by omega) (by omega)]
      exact ⟨rfl, rfl, Or.inr (Or.inr (Or.inr ⟨rfl, rfl, by dsimp only; omega⟩))⟩
    · rw [pgStep_L_advance hc (by omega)]
      exact ⟨rfl, rfl, Or.inr (Or.inr (Or.inl ⟨rfl, rfl, by dsimp only; omega⟩))⟩
  · dsimp only at hd hx hy
    subst hd; subst hx
    by_cases hc : sy = 0
    · subst hc
      rw [pgStep_U_turn (by omega)]
      exact ⟨rfl, rfl, Or.inl ⟨rfl, rfl, by dsimp only; omega⟩⟩
    · rw [pgStep_U_advance hc (by omega)]
      exact ⟨rfl, rfl, Or.inr (Or.inr (Or.inr ⟨rfl, rfl, by dsimp only; omega⟩))⟩

theorem PGInv_iterate {w h : Nat} (h2w : 2 ≤ w) (hw : w < 65536) (h2h : 2 ≤ h)
    (hh : h < 65536) (n : Nat) :
    PGInv w h (pgStep^[n] (PositionGenerator.new w h)) := by
  induction n with
  | zero => exact PGInv_new w h
  | succ m ih =>
    rw [Function.iterate_succ_apply']
    exact PGInv_step h2w hw h2h hh ih

/-! Straight legs of the traversal, and the landmark states of one full lap
starting from the state `⟨w, h, 1, 0, Right⟩` reached after the first call. -/

theorem pg_legR {w h y : Nat} (hw : w ≤ 65536) :
    ∀ k x, x + k + 1 ≤ w → pgStep^[k] ⟨w, h, x, y, .Right⟩ = ⟨w, h, x + k, y, .Right⟩ := by
  intro k
  induction k with
  | zero => intro x hx; rfl
  | succ n ih =>
    intro x hx
    rw [Function.iterate_succ_apply, pgStep_R_advance (by omega) hw, ih (x + 1) (by omega)]
    congr 1
    omega

theorem pg_legD {w h x : Nat} (hh : h ≤ 65536) :
    ∀ k y, y + k + 1 ≤ h → pgStep^[k] ⟨w, h, x, y, .Down⟩ = ⟨w, h, x, y + k, .Down⟩ := by
  intro k
  induction k with
  | zero => intro y hy; rfl
  | succ n ih =>
    intro y hy
    rw [Function.iterate_succ_apply, pgStep_D_advance (by omega) hh, ih (y + 1) (by omega)]
    congr 1
    omega

theorem pg_legL {w h y : Nat} :
    ∀ k x, k ≤ x → x < 65536 → pgStep^[k] ⟨w, h, x, y, .Left⟩ = ⟨w, h, x - k, y, .Left⟩ := by
  intro k
  induction k with
  | zero => intro x hx hb; rfl
  | succ n ih =>
    intro x hx hb
    rw [Function.iterate_succ_apply, pgStep_L_advance (by omega) hb, ih (x - 1) (by omega) (by omega)]
    congr 1
    omega

theorem pg_legU {w h x : Nat} :
    ∀ k y, k ≤ y → y < 65536 → pgStep^[k] ⟨w, h, x, y, .Up⟩ = ⟨w, h, x, y - k, .Up⟩ := by
  intro k
  induction k with
  | zero => intro y hy hb; rfl
  | succ n ih =>
    intro y hy hb
    rw [Function.iterate_succ_apply, pgStep_U_advance (by omega) hb, ih (y - 1) (by omega) (by omega)]
    congr 1
    omega

theorem pg_mid1 {w h : Nat} (h2w : 2 ≤ w) (hw : w < 65536) (h2h : 2 ≤ h)
    (hh : h < 65536) :
    pgStep^[w - 1] ⟨w, h, 1, 0, .Right⟩ = ⟨w, h, w - 1, 1, .Down⟩ := by
  have hsum : w - 1 = 1 + (w - 2) := by omega
  rw [hsum, Function.iterate_add_apply, pg_legR (by omega) (w - 2) 1 (by omega),
    Function.iterate_one, pgStep_R_turn (by omega) (by omega) (by omega)]

theorem pg_mid2 {w h : Nat} (h2w : 2 ≤ w) (hw : w < 65536) (h2h : 2 ≤ h)
    (hh : h < 65536) :
    pgStep^[w + h - 2] ⟨w, h, 1, 0, .Right⟩ = ⟨w, h, w - 2, h - 1, .Left⟩ := by
  have hsum : w + h - 2 = 1 + (h - 2) + (w - 1) := by omega
  rw [hsum, Function.iterate_add_apply, pg_mid1 h2w hw h2h hh,
    Function.iterate_add_apply, pg_legD (by omega) (h - 2) 1 (by omega),
    Function.iterate_one, pgStep_D_turn (by omega) (by omega) (by omega) (by omega)]
  congr 1
  omega

theorem pg_mid3 {w h : Nat} (h2w : 2 ≤ w) (hw : w < 65536) (h2h : 2 ≤ h)
    (hh : h < 65536) :
    pgStep^[2 * w + h - 3] ⟨w, h, 1, 0, .Right⟩ = ⟨w, h, 0, h - 2, .Up⟩ := by
  have hsum : 2 * w + h - 3 = 1 + (w - 2) + (w + h - 2) := by omega
  rw [hsum, Function.iterate_add_apply, pg_mid2 h2w hw h2h hh,
    Function.iterate_add_apply, pg_legL (w - 2) (w - 2) (by omega) (by omega),
    Function.iterate_one]
  have hx0 : w - 2 - (w - 2) = 0 := by omega
  rw [hx0, pgStep_L_turn (by omega) (by omega)]
  congr 1

theorem pg_lap_end {w h : Nat} (h2w : 2 ≤ w) (hw : w < 65536) (h2h : 2 ≤ h)
    (hh : h < 65536) :
    pgStep^[2 * w + 2 * h - 5] ⟨w, h, 1, 0, .Right⟩ = ⟨w, h, 0, 0, .Up⟩ := by
  have hsum : 2 * w + 2 * h - 5 = (h - 2) + (2 * w + h - 3) := by omega
  rw [hsum, Function.iterate_add_apply, pg_mid3 h2w hw h2h hh,
    pg_legU (h - 2) (h - 2) (by omega) (by omega)]
  congr 1
  omega

theorem pg_lap {w h : Nat} (h2w : 2 ≤ w) (hw : w < 65536) (h2h : 2 ≤ h)
    (hh : h < 65536) :
    pgStep^[2 * w + 2 * h - 4] ⟨w, h, 1, 0, .Right⟩ = ⟨w, h, 1, 0, .Right⟩ := by
  have hsum : 2 * w + 2 * h - 4 = 1 + (2 * w + 2 * h - 5) := by omega
  rw [hsum, Function.iterate_add_apply, pg_lap_end h2w hw h2h hh,
    Function.iterate_one, pgStep_U_turn (by omega)]

theorem pg_first_step {w h : Nat} (h2w : 2 ≤ w) (hw : w < 65536) :
    pgStep (PositionGenerator.new w h) = ⟨w, h, 1, 0, .Right⟩ := by
  have := pgStep_R_advance (w := w) (h := h) (x := 0) (y := 0) (by omega) (by omega)
  simpa [PositionGenerator.new] using this

/-! Claim C1. -/

/-- C1, counterexample to the claim as stated: the state `⟨2,2,1,0,Right⟩`
(reached from `new 2 2` by one call) fails its boundary test, yet the call
does not merely switch the facing: it also moves the position from (1,0) to
(1,1). -/
theorem guru_c1_counterexample :
    pgStep (PositionGenerator.new 2 2) = ⟨2, 2, 1, 0, .Right⟩ ∧
    ¬ boundaryOk ⟨2, 2, 1, 0, .Right⟩ ∧
    ((pgStep ⟨2, 2, 1, 0, .Right⟩).x, (pgStep ⟨2, 2, 1, 0, .Right⟩).y) = (1, 1) := by
  decide

/-- C1 (amended): on every in-range state (invariant `PGInv`, `2 ≤ width`,
`2 ≤ height`), `next` emits the position held before the update; a call whose
boundary test succeeds keeps the facing and moves one cell in that facing,
while a call whose boundary test fails switches the facing to the next
clockwise direction AND also moves one cell in the new facing; hence the
position changes on every call, not only on boundary-test successes. -/
theorem pg_next_emits_then_moves {w h : Nat} (h2w : 2 ≤ w) (hw : w < 65536)
    (h2h : 2 ≤ h) (hh : h < 65536) (s : PositionGenerator) (hs : PGInv w h s) :
    (pgNext s).1 = (s.x, s.y) ∧
    (boundaryOk s →
      (pgStep s).direction = s.direction ∧
      ((pgStep s).x, (pgStep s).y) = moveOne s.direction (s.x, s.y)) ∧
    (¬ boundaryOk s →
      (pgStep s).direction = clockwise s.direction ∧
      ((pgStep s).x, (pgStep s).y) = moveOne (clockwise s.direction) (s.x, s.y)) ∧
    ((pgStep s).x, (pgStep s).y) ≠ (s.x, s.y) := by
  obtain ⟨sw, sh, sx, sy, sd⟩ := s
  obtain ⟨hsw, hsh, hcase⟩ := hs
  dsimp only at hsw hsh
  subst hsw; subst hsh
  rcases hcase with ⟨hd, hy, hx⟩ | ⟨hd, hx, hy1, hy2⟩ | ⟨hd, hy, hx⟩ | ⟨hd, hx, hy⟩
  · dsimp only at hd hy hx
    subst hd; subst hy
    by_cases hc : sx + 1 < sw
    · rw [pgStep_R_advance hc (by omega)]
      exact ⟨rfl, fun _ => ⟨rfl, rfl⟩, fun hnb => absurd hc hnb,
        by dsimp only; simp only [ne_eq, Prod.mk.injEq, not_and]; omega⟩
    · rw [pgStep_R_turn hc (by omega) (by omega)]
      exact ⟨rfl, fun hb => absurd hb hc, fun _ => ⟨rfl, rfl⟩,
        by dsimp only; simp only [ne_eq, Prod.mk.injEq, not_and]; omega⟩
  · dsimp only at hd hx hy1 hy2
    subst hd; subst hx
    by_cases hc : sy + 1 < sh
    · rw [pgStep_D_advance hc (by omega)]
      exact ⟨rfl, fun _ => ⟨rfl, rfl⟩, fun hnb => absurd hc hnb,
        by dsimp only; simp only [ne_eq, Prod.mk.injEq, not_and]; omega⟩
    · rw [pgStep_D_turn hc (by omega) (by omega) (by omega)]
      exact ⟨rfl, fun hb => absurd hb hc, fun _ => ⟨rfl, rfl⟩,
        by dsimp only; simp only [ne_eq, Prod.mk.injEq, not_and]; omega⟩
  · dsimp only at hd hy hx
    subst hd; subst hy
    by_cases hc : sx = 0
    · subst hc
      rw [pgStep_L_turn (by omega) (by omega)]
      exact ⟨rfl, fun hb => absurd rfl hb, fun _ => ⟨rfl, rfl⟩,
        by dsimp only; simp only [ne_eq, Prod.mk.injEq, not_and]; omega⟩
    · rw [pgStep_L_advance hc (by omega)]
      exact ⟨rfl, fun _ => ⟨rfl, rfl⟩, fun hnb => absurd hc hnb,
        by dsimp only; simp only [ne_eq, Prod.mk.injEq, not_and]; omega⟩
  · dsimp only at hd hx hy
    subst hd; subst hx
    by_cases hc : sy = 0
    · subst hc
      rw [pgStep_U_turn (by omega)]
      exact ⟨rfl, fun hb => absurd rfl hb, fun _ => ⟨rfl, rfl⟩,
        by dsimp only; simp only [ne_eq, Prod.mk.injEq, not_and]; omega⟩
    · rw [pgStep_U_advance hc (by omega)]
      exact ⟨rfl, fun _ => ⟨rfl, rfl⟩, fun hnb => absurd hc hnb,
        by dsimp only; simp only [ne_eq, Prod.mk.injEq, not_and]; omega⟩

/-- C1, witness: the in-range state `⟨3,3,2,0,Right⟩` fails its boundary test
(x + 1 = width); the call emits (2,0), turns the facing to `Down`, and moves
the position to (2,1). -/
theorem pg_next_emits_then_moves_witness :
    (pgNext (⟨3, 3, 2, 0, .Right⟩ : PositionGenerator)).1 = (2, 0) ∧
    (pgStep (⟨3, 3, 2, 0, .Right⟩ : PositionGenerator)).direction = Direction.Down ∧
    ((pgStep (⟨3, 3, 2, 0, .Right⟩ : PositionGenerator)).x,
      (pgStep (⟨3, 3, 2, 0, .Right⟩ : PositionGenerator)).y) = (2, 1) := by
  have h := pg_next_emits_then_moves (w := 3) (h := 3) (by decide) (by decide)
    (by decide) (by decide) ⟨3, 3, 2, 0, .Right⟩ (by decide)
  exact ⟨h.1, (h.2.2.1 (by decide)).1, (h.2.2.1 (by decide)).2⟩

/-! Claim C2. -/

/-- C2, counterexample to the claim as stated: with width = 3, height = 1
(which the claim covers, demanding 0 ≤ y < height), the fourth emitted
position is (2,1), whose y-coordinate is not below the height. -/
theorem guru_c2_counterexample :
    pgEmit (PositionGenerator.new 3 1) 3 = (2, 1) ∧
    ¬ (pgEmit (PositionGenerator.new 3 1) 3).2 < 1 := by
  decide

/-- C2 (amended): for every width ≥ 2 and height ≥ 2 (u16-representable),
every position emitted by the generator created with `new width height`
satisfies 0 ≤ x < width and 0 ≤ y < height and lies on the rectangle
boundary, and the first emitted position is (0,0). -/
theorem pg_boundary_invariant (w h : Nat) (h2w : 2 ≤ w) (hw : w < 65536)
    (h2h : 2 ≤ h) (hh : h < 65536) (n : Nat) :
    (pgEmit (PositionGenerator.new w h) n).1 < w ∧
    (pgEmit (PositionGenerator.new w h) n).2 < h ∧
    ((pgEmit (PositionGenerator.new w h) n).1 = 0 ∨
     (pgEmit (PositionGenerator.new w h) n).1 = w - 1 ∨
     (pgEmit (PositionGenerator.new w h) n).2 = 0 ∨
     (pgEmit (PositionGenerator.new w h) n).2 = h - 1) ∧
    pgEmit (PositionGenerator.new w h) 0 = (0, 0) := by
  obtain ⟨hsw, hsh, hcase⟩ := PGInv_iterate h2w hw h2h hh n
  unfold pgEmit
  dsimp only
  rcases hcase with ⟨hd, hy, hx⟩ | ⟨hd, hx, hy1, hy2⟩ | ⟨hd, hy, hx⟩ | ⟨hd, hx, hy⟩ <;>
    exact ⟨by omega, by omega, by omega, rfl⟩

/-- C2, witness at width = 5, height = 4, step 7. -/
theorem pg_boundary_invariant_witness :
    (pgEmit (PositionGenerator.new 5 4) 7).1 < 5 ∧
    (pgEmit (PositionGenerator.new 5 4) 7).2 < 4 ∧
    ((pgEmit (PositionGenerator.new 5 4) 7).1 = 0 ∨
     (pgEmit (PositionGenerator.new 5 4) 7).1 = 5 - 1 ∨
     (pgEmit (PositionGenerator.new 5 4) 7).2 = 0 ∨
     (pgEmit (PositionGenerator.new 5 4) 7).2 = 4 - 1) ∧
    pgEmit (PositionGenerator.new 5 4) 0 = (0, 0) :=
  pg_boundary_invariant 5 4 (by decide) (by decide) (by decide) (by decide) 7

/-! Claim C3. -/

/-- C3, counterexample to the claim as stated: for width = 2, height = 1 the
claim asserts period 1, but the second emitted position (1,0) already differs
from the first (0,0). -/
theorem guru_c3_counterexample :
    pgEmit (PositionGenerator.new 2 1) 1 = (1, 0) ∧
    pgEmit (PositionGenerator.new 2 1) 1 ≠ pgEmit (PositionGenerator.new 2 1) 0 := by
  decide

/-- C3 (amended): for every width ≥ 2 and height ≥ 2 (u16-representable), the
emitted sequence is periodic with period exactly 2*(width+height-2): after
that many calls the generator emits (0,0) again, the whole sequence repeats
identically thereafter, and no earlier positive step emits the starting cell
(so no smaller period exists). -/
theorem pg_periodicity (w h : Nat) (h2w : 2 ≤ w) (hw : w < 65536)
    (h2h : 2 ≤ h) (hh : h < 65536) :
    pgEmit (PositionGenerator.new w h) (2 * (w + h - 2)) = (0, 0) ∧
    (∀ n, pgEmit (PositionGenerator.new w h) (n + 2 * (w + h - 2)) =
      pgEmit (PositionGenerator.new w h) n) ∧
    (∀ k, 0 < k → k < 2 * (w + h - 2) →
      pgEmit (PositionGenerator.new w h) k ≠ (0, 0)) := by
  have hshift : ∀ m : Nat, pgStep^[m + 1] (PositionGenerator.new w h) =
      pgStep^[m] ⟨w, h, 1, 0, .Right⟩ := by
    intro m
    rw [Function.iterate_succ_apply, pg_first_step h2w hw]
  refine ⟨?_, ?_, ?_⟩
  · have h1 : 2 * (w + h - 2) = (2 * w + 2 * h - 5) + 1 := by omega
    unfold pgEmit
    rw [h1, hshift, pg_lap_end h2w hw h2h hh]
  · intro n
    cases n with
    | zero =>
      have h1 : 0 + 2 * (w + h - 2) = (2 * w + 2 * h - 5) + 1 := by omega
      unfold pgEmit
      rw [h1, hshift, pg_lap_end h2w hw h2h hh]
      rfl
    | succ m =>
      have h1 : m + 1 + 2 * (w + h - 2) = (m + (2 * w + 2 * h - 4)) + 1 := by omega
      unfold pgEmit
      rw [h1, hshift, Function.iterate_add_apply, pg_lap h2w hw h2h hh, ← hshift]
  · intro k hk0 hkP
    obtain ⟨j, rfl⟩ : ∃ j, k = j + 1 := ⟨k - 1, by omega⟩
    unfold pgEmit
    rw [hshift]
    rcases (show j ≤ w - 2 ∨ (w - 1 ≤ j ∧ j ≤ w + h - 3) ∨
        (w + h - 2 ≤ j ∧ j ≤ 2 * w + h - 4) ∨
        (2 * w + h - 3 ≤ j ∧ j ≤ 2 * w + 2 * h - 6) from by omega) with
      hcase | ⟨hlo, hhi⟩ | ⟨hlo, hhi⟩ | ⟨hlo, hhi⟩
    · rw [pg_legR (by omega) j 1 (by omega)]
      dsimp only
      simp only [ne_eq, Prod.mk.injEq, not_and]
      omega
    · obtain ⟨i, rfl⟩ : ∃ i, j = i + (w - 1) := ⟨j - (w - 1), by omega⟩
      rw [Function.iterate_add_apply, pg_mid1 h2w hw h2h hh,
        pg_legD (by omega) i 1 (by omega)]
      dsimp only
      simp only [ne_eq, Prod.mk.injEq, not_and]
      omega
    · obtain ⟨i, rfl⟩ : ∃ i, j = i + (w + h - 2) := ⟨j - (w + h - 2), by omega⟩
      rw [Function.iterate_add_apply, pg_mid2 h2w hw h2h hh,
        pg_legL i (w - 2) (by omega) (by omega)]
      dsimp only
      simp only [ne_eq, Prod.mk.injEq, not_and]
      omega
    · obtain ⟨i, rfl⟩ : ∃ i, j = i + (2 * w + h - 3) := ⟨j - (2 * w + h - 3), by omega⟩
      rw [Function.iterate_add_apply, pg_mid3 h2w hw h2h hh,
        pg_legU i (h - 2) (by omega) (by omega)]
      dsimp only
      simp only [ne_eq, Prod.mk.injEq, not_and]
      omega

/-- C3, witness at width = 5, height = 4: the period is 14, emission 14 is
(0,0) again, emission 3 + 14 repeats emission 3, and emission 7 (inside the
first lap) is not (0,0). -/
theorem pg_periodicity_witness :
    pgEmit (PositionGenerator.new 5 4) (2 * (5 + 4 - 2)) = (0, 0) ∧
    pgEmit (PositionGenerator.new 5 4) (3 + 2 * (5 + 4 - 2)) =
      pgEmit (PositionGenerator.new 5 4) 3 ∧
    pgEmit (PositionGenerator.new 5 4) 7 ≠ (0, 0) := by
  have h := pg_periodicity 5 4 (by decide) (by decide) (by decide) (by decide)
  exact ⟨h.1, h.2.1 3, h.2.2 7 (by decide) (by decide)⟩

/-! Claim C4. -/

/-- C4: evidence of the code bug the claim's requirement exposes.  For
width = 1, height = 1 the first call already moves y out of range (state
`⟨1,1,0,1,Down⟩`), and the second call hits `self.x -= 1` with x = 0: a u16
underflow, which panics in a debug build (`pgNextPanics`) and wraps to 65535
in a release build, so the emitted positions after the first are (0,1),
(65535,1), ..., not (0,0) forever as required. -/
theorem pg_degenerate_underflow :
    pgStep (PositionGenerator.new 1 1) = ⟨1, 1, 0, 1, .Down⟩ ∧
    pgNextPanics (pgStep (PositionGenerator.new 1 1)) = true ∧
    pgEmit (PositionGenerator.new 1 1) 1 = (0, 1) ∧
    pgEmit (PositionGenerator.new 1 1) 2 = (65535, 1) := by
  decide

/-! Claim C5. -/

theorem cgStep_iterate (cs : List Char) (k : Nat) :
    cgStep^[k] (CharGen.new cs) = ⟨k % cs.length, cs⟩ := by
  induction k with
  | zero => simp [CharGen.new, Nat.zero_mod]
  | succ n ih =>
    rw [Function.iterate_succ_apply', ih]
    unfold cgStep cgNext
    dsimp only
    congr 1
    exact Nat.mod_add_mod n cs.length 1

/-- C5: a `CharGen` built by `new` from a non-empty character list starts at
position 0; call k returns the character at index k mod L (in particular the
first L calls return the original characters in order), and the output stream
is cyclic with period L forever. -/
theorem cg_cyclic (cs : List Char) (hne : cs ≠ []) :
    (CharGen.new cs).position = 0 ∧
    (∀ k, cgEmit (CharGen.new cs) k = cs[k % cs.length]?) ∧
    (∀ k, ∀ hk : k < cs.length, cgEmit (CharGen.new cs) k = some (cs.get ⟨k, hk⟩)) ∧
    (∀ k, cgEmit (CharGen.new cs) (k + cs.length) = cgEmit (CharGen.new cs) k) := by
  have hform : ∀ k, cgEmit (CharGen.new cs) k = cs[k % cs.length]? := by
    intro k
    unfold cgEmit
    rw [cgStep_iterate]
    rfl
  refine ⟨rfl, hform, ?_, ?_⟩
  · intro k hk
    rw [hform k, Nat.mod_eq_of_lt hk]
    simp [List.getElem?_eq_getElem hk, List.get_eq_getElem]
  · intro k
    rw [hform, hform, Nat.add_mod_right]

/-- C5, witness on the three-character list "abc": calls 0, 2 and 4 return
'a', 'c' and 'b' (index k mod 3). -/
theorem cg_cyclic_witness :
    cgEmit (CharGen.new ['a', 'b', 'c']) 0 = some 'a' ∧
    cgEmit (CharGen.new ['a', 'b', 'c']) 2 = some 'c' ∧
    cgEmit (CharGen.new ['a', 'b', 'c']) 4 = some 'b' ∧
    cgEmit (CharGen.new ['a', 'b', 'c']) (1 + 3) = cgEmit (CharGen.new ['a', 'b', 'c']) 1 := by
  have h := cg_cyclic ['a', 'b', 'c'] (by decide)
  exact ⟨(h.2.1 0).trans rfl, (h.2.1 2).trans rfl, (h.2.1 4).trans rfl, h.2.2.2 1⟩

/-! Claim C6. -/

/-- C6: `update` with a non-empty replacement text of length n replaces the
character list and sets the position to the old position mod n — the phase is
preserved, not reset to 0 — and the new position is in range. -/
theorem cg_update_preserves_phase (cg : CharGen) (t : List Char) (hne : t ≠ []) :
    (cg.update t).chars = t ∧
    (cg.update t).position = cg.position % t.length ∧
    (cg.update t).position < t.length :=
  ⟨rfl, rfl, Nat.mod_lt _ (List.length_pos.mpr hne)⟩

/-- C6, witness for the example of the claim: position 5 with old length 6,
updated to a text of length 3, yields position 5 mod 3 = 2. -/
theorem cg_update_preserves_phase_witness :
    ((⟨5, ['a', 'b', 'c', 'd', 'e', 'f']⟩ : CharGen).update ['x', 'y', 'z']).chars
      = ['x', 'y', 'z'] ∧
    ((⟨5, ['a', 'b', 'c', 'd', 'e', 'f']⟩ : CharGen).update ['x', 'y', 'z']).position
      = 5 % 3 ∧
    ((⟨5, ['a', 'b', 'c', 'd', 'e', 'f']⟩ : CharGen).update ['x', 'y', 'z']).position
      < 3 ∧
    ((⟨5, ['a', 'b', 'c', 'd', 'e', 'f']⟩ : CharGen).update ['x', 'y', 'z']).position
      = 2 := by
  have h := cg_update_preserves_phase ⟨5, ['a', 'b', 'c', 'd', 'e', 'f']⟩
    ['x', 'y', 'z'] (by decide)
  exact ⟨h.1, h.2.1, h.2.2, by decide⟩

/-! Claim C7. -/

/-- C7: when the suspended engine's FIFO queue holds `Pause`, then
`NewMessage t`, then `Resume`, the message is not lost: the running-state
poll consumes the `Pause`, the wait loop applies the `CharGen` update for
`NewMessage t` before honoring the `Resume`, and the engine re-enters the
running state with message `t` in effect (and `t` stays in effect over any
number of subsequent `next` calls).  The same wait loop handles the initial
awaiting state, so a `NewMessage t` before the first `Resume` is applied
there as well. -/
theorem pause_newmessage_resume_keeps_message (cg : CharGen) (t : List Char)
    (rest : List State) :
    runningStep (State.Pause :: State.NewMessage t :: State.Resume :: rest) cg
      = EngineResult.running (cg.update t) rest ∧
    waitLoop (State.NewMessage t :: State.Resume :: rest) cg
      = WaitOutcome.resumed (cg.update t) rest ∧
    (cg.update t).chars = t ∧
    (∀ n, (cgStep^[n] (cg.update t)).chars = t) := by
  refine ⟨rfl, rfl, rfl, ?_⟩
  intro n
  induction n with
  | zero => rfl
  | succ m ih =>
    rw [Function.iterate_succ_apply']
    exact ih

/-! Claim C8. -/

/-- C8, counterexample to the claim as stated: the claim quantifies over
every terminal width, but at width 1 the code computes `(1 - 2) as u16`,
which wraps to 65535 (release build; a debug build panics), so a keystroke on
an empty buffer is appended even though the resulting length 1 is not below
width - 2 — the claim would require it to be silently dropped. -/
theorem guru_c8_counterexample :
    innerWidth 1 = 65535 ∧
    onChar (innerWidth 1) [] 'a' = ['a'] ∧
    ¬ (([] : List Char).length + 1 < 1 - 2) := by
  decide

/-- C8 (amended): for every terminal width w with 2 ≤ w < 65536 and every
buffer, a printable keystroke is appended exactly when the resulting buffer
length stays strictly below w - 2 and is otherwise silently dropped leaving
the buffer unchanged; in particular once the buffer holds w - 3 characters
the next printable keystroke leaves it unchanged at w - 3. -/
theorem input_capacity_clamp (w : Nat) (h2 : 2 ≤ w) (hw : w < 65536)
    (msg : List Char) (ch : Char) :
    innerWidth w = w - 2 ∧
    onChar (innerWidth w) msg ch = (if msg.length + 1 < w - 2 then msg ++ [ch] else msg) ∧
    (msg.length + 1 < w - 2 → (onChar (innerWidth w) msg ch).length = msg.length + 1) ∧
    (¬ msg.length + 1 < w - 2 → onChar (innerWidth w) msg ch = msg) ∧
    (msg.length = w - 3 → onChar (innerWidth w) msg ch = msg) := by
  have hiw : innerWidth w = w - 2 := by unfold innerWidth; omega
  refine ⟨hiw, ?_, ?_, ?_, ?_⟩
  · unfold onChar
    rw [hiw]
  · intro hlt
    unfold onChar
    rw [hiw, if_pos hlt]
    simp
  · intro hge
    unfold onChar
    rw [hiw, if_neg hge]
  · intro hlen
    unfold onChar
    rw [hiw, if_neg (by omega)]

/-- C8, witness at terminal width 10: a buffer of length 7 = 10 - 3 drops the
next keystroke, while a buffer of length 1 accepts it. -/
theorem input_capacity_clamp_witness :
    onChar (innerWidth 10) ['a', 'b', 'c', 'd', 'e', 'f', 'g'] 'z'
      = ['a', 'b', 'c', 'd', 'e', 'f', 'g'] ∧
    onChar (innerWidth 10) ['a'] 'b' = ['a', 'b'] := by
  have h7 := input_capacity_clamp 10 (by decide) (by decide)
    ['a', 'b', 'c', 'd', 'e', 'f', 'g'] 'z'
  have h1 := input_capacity_clamp 10 (by decide) (by decide) ['a'] 'b'
  exact ⟨h7.2.2.2.2 (by decide), h1.2.1.trans (by decide)⟩

/-! Claim C9. -/

/-- C9: `CharGen` operations are total only under the non-empty precondition.
On an empty character list, `next` indexes out of bounds (every position is
past the end, and the emitted value is the out-of-range `none`) and its
position update is the expression `(position + 1) % 0`; `update` with an
empty string proceeds with no guard, leaving the empty list and computing
`position % 0` — a division by zero, with no InvalidArgument-style error path
anywhere in either operation. -/
theorem cg_empty_unguarded (cg : CharGen) (he : cg.chars = []) :
    (cgNext cg).1 = none ∧
    cg.chars.length ≤ cg.position ∧
    (cgNext cg).2.position = (cg.position + 1) % 0 ∧
    (cg.update []).position = cg.position % 0 ∧
    (cg.update []).chars = [] ∧
    cgUpdateDividesByZero [] = true := by
  obtain ⟨p, cs⟩ := cg
  dsimp only at he
  subst he
  refine ⟨?_, ?_, rfl, rfl, rfl, rfl⟩
  · simp [cgNext]
  · exact Nat.zero_le p

/-- C9, witness: a `CharGen` with empty characters at position 7. -/
theorem cg_empty_unguarded_witness :
    (cgNext (⟨7, []⟩ : CharGen)).1 = none ∧
    (⟨7, []⟩ : CharGen).chars.length ≤ 7 ∧
    (cgNext (⟨7, []⟩ : CharGen)).2.position = (7 + 1) % 0 ∧
    ((⟨7, []⟩ : CharGen).update []).position = 7 % 0 ∧
    ((⟨7, []⟩ : CharGen).update []).chars = [] ∧
    cgUpdateDividesByZero [] = true :=
  cg_empty_unguarded ⟨7, []⟩ rfl

/-! Claim C10. -/

/-- C10: in the running state, the non-blocking poll `should_pause` removes
at most one signal from the queue (none when the queue is empty) and treats
it as a pause request only when it is `Pause`; a `Stop`, `Resume` or
`NewMessage` at the head is consumed and discarded with no effect on the
engine state, and the engine continues running. -/
theorem running_poll_discards_nonpause (cg : CharGen) (rest : List State)
    (m : List Char) :
    should_pause [] = (false, []) ∧
    should_pause (State.Pause :: rest) = (true, rest) ∧
    should_pause (State.Stop :: rest) = (false, rest) ∧
    should_pause (State.Resume :: rest) = (false, rest) ∧
    should_pause (State.NewMessage m :: rest) = (false, rest) ∧
    runningStep (State.Stop :: rest) cg = EngineResult.running cg rest ∧
    runningStep (State.Resume :: rest) cg = EngineResult.running cg rest ∧
    runningStep (State.NewMessage m :: rest) cg = EngineResult.running cg rest :=
  ⟨rfl, rfl, rfl, rfl, rfl, rfl, rfl, rfl⟩

end Guruguru
